import Mathlib

/-!
# Verification of the Pac-Man pursuit engine (`Pacman.py`)

Shallow embedding of the game core: grid model, player (runner) motion,
ghost (hunter) path-following motion, A* pathfinding and collision
detection, together with proofs about the behaviour the specification
describes.

Modelling conventions:
* Python floats are modelled as rationals (`ℚ`); every constant appearing
  in the source (`0.5`, `0.1`, …) is exactly representable.
* Python `round` rounds half to even (banker's rounding); it is embedded
  as `pround`.  Python `int` truncates toward zero; it is embedded as
  `pyint`.
* A grid (`list[list[int]]` in the source, indexed `grid[y][x]`) is
  embedded as a total function `ℤ → ℤ → ℕ`; the source only indexes it
  inside explicit bound checks, which are embedded verbatim.
* `heapq` keeps tuples `(priority, item)` ordered lexicographically and
  `heappop` returns a least element of that total order, so the frontier
  is embedded as a list whose `get` operation removes a least element
  under the same lexicographic order; the sequence of popped values is
  identical to the heap's.
* The `while` loops of `a_star_search` are embedded with an explicit
  fuel bound `LOOP_FUEL`, large enough for every run the theorems below
  reason about (the search loop performs strictly fewer iterations than
  `LOOP_FUEL`, as proved in the termination lemmas).
-/

namespace Pacman

set_option maxRecDepth 40000

/-- Python `round` on an exact rational: nearest integer, ties to even. -/
def pround (q : ℚ) : ℤ :=
  if q - ⌊q⌋ < 1/2 then ⌊q⌋
  else if 1/2 < q - ⌊q⌋ then ⌊q⌋ + 1
  else if Even ⌊q⌋ then ⌊q⌋ else ⌊q⌋ + 1

/-- Python `int` on an exact rational: truncation toward zero. -/
def pyint (q : ℚ) : ℤ := q.num / (q.den : ℤ)

/-- `GRID_SIZE = 20`: number of cells per side of the game grid. -/
def GRID_SIZE : ℤ := 20

/-- A grid cell coordinate pair `(x, y)` (or `(y, x)` when used as index). -/
abbrev Cell := ℤ × ℤ

/-- The game grid: cell states indexed `grid y x`, matching the source's
`grid[y][x]`; `0` = open, `1` = wall, `2` = pellet. -/
abbrev Grid := ℤ → ℤ → ℕ

/-- `grid[y][x] = v`, the single mutation the source performs on grids. -/
def setCell (g : Grid) (y x : ℤ) (v : ℕ) : Grid :=
  fun b a => if b = y ∧ a = x then v else g b a

/-- The keys of the source's `DIRECTIONS` dictionary. -/
inductive DirKey
  | UP | DOWN | LEFT | RIGHT
deriving DecidableEq

/-- The `DIRECTIONS` dictionary from the source, mapping each key to the
exact `(dx, dy)` pair the code stores (note the inverted orientation:
`RIGHT` is `(-1, 0)` and `LEFT` is `(1, 0)` in the source). -/
def DIRECTIONS : DirKey → ℤ × ℤ
  | .UP => (0, 1)
  | .DOWN => (0, -1)
  | .LEFT => (1, 0)
  | .RIGHT => (-1, 0)

/-- The `Player` (runner) state.  The render-only fields `color` and
`radius` are omitted; all fields the engine reads or writes are kept. -/
structure Player where
  id : ℤ
  position : ℚ × ℚ
  name : String
  direction : ℤ × ℤ
  score : ℕ
  speed : ℚ
deriving DecidableEq

/-- `Player.__init__`: direction starts as `DIRECTIONS['RIGHT']`, score `0`,
speed `0.5`; no validation of any argument is performed. -/
def Player.init (id : ℤ) (x y : ℚ) (name : String) : Player :=
  { id := id
    position := (x, y)
    name := name
    direction := DIRECTIONS .RIGHT
    score := 0
    speed := 1/2 }

/-- `Player.is_valid_move`: in bounds and the truncated cell is not a wall. -/
def is_valid_move (x y : ℚ) (grid : Grid) : Prop :=
  0 ≤ x ∧ x < (GRID_SIZE : ℚ) ∧ 0 ≤ y ∧ y < (GRID_SIZE : ℚ) ∧
    grid (pyint y) (pyint x) ≠ 1

instance (x y : ℚ) (grid : Grid) : Decidable (is_valid_move x y grid) := by
  unfold is_valid_move; infer_instance

/-- `Player.collect_pellet`: round the position to a cell; if it holds a
pellet (`2`), clear it (`0`) and add `10` to the score. -/
def collect_pellet (p : Player) (grid : Grid) : Player × Grid :=
  let x := pround p.position.1
  let y := pround p.position.2
  if grid y x = 2 then
    ({ p with score := p.score + 10 }, setCell grid y x 0)
  else (p, grid)

/-- `Player.move`: step by `direction * speed`; if the candidate position is
valid, take it and collect at the rounded cell, otherwise stay put. -/
def Player.move (p : Player) (grid : Grid) : Player × Grid :=
  let new_x := p.position.1 + (p.direction.1 : ℚ) * p.speed
  let new_y := p.position.2 + (p.direction.2 : ℚ) * p.speed
  if is_valid_move new_x new_y grid then
    collect_pellet { p with position := (new_x, new_y) } grid
  else (p, grid)

/-- The `Ghost` (hunter) state; the render-only fields are omitted. -/
structure Ghost where
  position : ℚ × ℚ
  speed : ℚ
  path : List Cell
deriving DecidableEq

/-- `Ghost.__init__`: speed `0.1`, empty path; no validation. -/
def Ghost.init (x y : ℚ) : Ghost :=
  { position := (x, y), speed := 1/10, path := [] }

/-- `Ghost.move`: step toward the head waypoint by `speed * (target - position)`
on each axis; once both residuals are within `0.1`, snap onto the waypoint
and pop it.  (The source's `grid` parameter is unused by the body.) -/
def Ghost.move (g : Ghost) : Ghost :=
  match g.path with
  | [] => g
  | next_pos :: rest =>
    let dx := (next_pos.1 : ℚ) - g.position.1
    let dy := (next_pos.2 : ℚ) - g.position.2
    let p1 := g.position.1 + g.speed * dx
    let p2 := g.position.2 + g.speed * dy
    if |p1 - (next_pos.1 : ℚ)| < 1/10 ∧ |p2 - (next_pos.2 : ℚ)| < 1/10 then
      { g with position := ((next_pos.1 : ℚ), (next_pos.2 : ℚ)), path := rest }
    else
      { g with position := (p1, p2) }

/-- `heuristic`: Manhattan distance between two cells. -/
def heuristic (a b : Cell) : ℤ :=
  |a.1 - b.1| + |a.2 - b.2|

/-- `get_neighbors`: the four axis-aligned neighbours that are in bounds and
not walls, in the source's iteration order. -/
def get_neighbors (pos : Cell) (grid : Grid) : List Cell :=
  [((0 : ℤ), (1 : ℤ)), (1, 0), (0, -1), (-1, 0)].filterMap fun d =>
    if 0 ≤ pos.1 + d.1 ∧ pos.1 + d.1 < GRID_SIZE ∧ 0 ≤ pos.2 + d.2 ∧
        pos.2 + d.2 < GRID_SIZE ∧ grid (pos.2 + d.2) (pos.1 + d.1) ≠ 1 then
      some (pos.1 + d.1, pos.2 + d.2)
    else none

/-- `check_collision`'s inner loop over ghosts for one player: report the
player's name at the first ghost within Euclidean distance `0.5`.  The float
comparison `math.dist(p, g) < 0.5` is embedded as the exactly equivalent
squared comparison `(px-gx)^2 + (py-gy)^2 < 1/4`. -/
def ghost_hit (pl : Player) : List Ghost → Option String
  | [] => none
  | gh :: rest =>
    if (pl.position.1 - gh.position.1) ^ 2 + (pl.position.2 - gh.position.2) ^ 2
        < 1/4 then
      some pl.name
    else ghost_hit pl rest

/-- `check_collision`: first `(player, ghost)` pair within distance `0.5`,
in iteration order; `none` when no pair is close enough. -/
def check_collision : List Player → List Ghost → Option String
  | [], _ => none
  | pl :: rest, ghosts =>
    match ghost_hit pl ghosts with
    | some n => some n
    | none => check_collision rest ghosts

/-- `create_grid`: all zeros, then border walls, then the two inner wall
rows, then pellets in every interior cell still `0`.  Each imperative pass
is embedded as a fold over the same index range. -/
def create_grid : Grid :=
  let g0 : Grid := fun _ _ => 0
  let g1 := (List.range 20).foldl
    (fun g i => setCell (setCell (setCell (setCell g 0 i 1) (GRID_SIZE - 1) i 1)
      i 0 1) i (GRID_SIZE - 1) 1) g0
  let g2 := (List.range 10).foldl
    (fun g k => setCell (setCell g 5 (5 + k) 1) 15 (5 + k) 1) g1
  (List.range 18).foldl
    (fun g i => (List.range 18).foldl
      (fun h j =>
        if h (1 + j) (1 + i) = 0 then setCell h (1 + j) (1 + i) 2 else h) g)
    g2

/-- A frontier entry `(priority, item)` as pushed by `frontier.put`. -/
abbrev Entry := ℤ × Cell

/-- Python's lexicographic order on `(priority, (x, y))` tuples, the order
`heapq` compares entries with. -/
def entryLe (a b : Entry) : Prop :=
  a.1 < b.1 ∨ (a.1 = b.1 ∧ (a.2.1 < b.2.1 ∨ (a.2.1 = b.2.1 ∧ a.2.2 ≤ b.2.2)))

instance (a b : Entry) : Decidable (entryLe a b) := by
  unfold entryLe; infer_instance

/-- `PriorityQueue.get` (`heapq.heappop`): remove and return a least entry
under `entryLe`.  `heapq` pops a least element of this total order, so the
popped value — and hence the whole search — is identical to the heap's. -/
def pqGet : List Entry → Option (Entry × List Entry)
  | [] => none
  | e :: es =>
    let m := es.foldl (fun acc x => if entryLe acc x then acc else x) e
    some (m, (e :: es).erase m)

/-- The mutable state of `a_star_search`'s main loop: the frontier, the
`came_from` map and the `cost_so_far` map.  Both Python dicts are embedded
as total functions into `Option`; `came_from[start] = None` coincides with
the default `none`, and the code never distinguishes a missing `came_from`
key from a stored `None`. -/
structure AState where
  frontier : List Entry
  came : Cell → Option Cell
  cost : Cell → Option ℕ

/-- The body of the `for next_pos in get_neighbors(...)` loop: relax one
neighbour.  A popped node always has a `cost_so_far` entry, so the `getD 0`
default is never read on reachable states. -/
def relaxStep (goal current : Cell) (st : AState) (next_pos : Cell) : AState :=
  if st.cost next_pos = none ∨
      (st.cost current).getD 0 + 1 < (st.cost next_pos).getD 0 then
    { frontier := st.frontier ++
        [((((st.cost current).getD 0 + 1 : ℕ) : ℤ) + heuristic goal next_pos, next_pos)]
      came := Function.update st.came next_pos (some current)
      cost := Function.update st.cost next_pos (some ((st.cost current).getD 0 + 1)) }
  else st

/-- Relax every neighbour of the popped node, in order. -/
def relaxAll (goal : Cell) (grid : Grid) (current : Cell) (st : AState) : AState :=
  (get_neighbors current grid).foldl (relaxStep goal current) st

/-- The main `while not frontier.empty()` loop of `a_star_search`, with an
explicit fuel bound.  The loop exits when the frontier empties or the goal
is popped; fuel exhaustion is proved unreachable for `LOOP_FUEL` below. -/
def astarLoop (goal : Cell) (grid : Grid) : ℕ → AState → AState
  | 0, st => st
  | fuel + 1, st =>
    match pqGet st.frontier with
    | none => st
    | some (e, rest) =>
      if e.2 = goal then st
      else astarLoop goal grid fuel
        (relaxAll goal grid e.2 { st with frontier := rest })

/-- The path-reconstruction `while current != start` loop, accumulating in
reverse so the final accumulator equals the source's `path` after its
`reverse()`.  Fuel bounds the chain length. -/
def reconstructLoop (came : Cell → Option Cell) (start : Cell) :
    ℕ → Cell → List Cell → List Cell
  | 0, _, path => path
  | fuel + 1, current, path =>
    if current = start then path
    else
      match came current with
      | none => current :: path
      | some prev => reconstructLoop came start fuel prev (current :: path)

/-- Fuel for the two loops; proved to strictly exceed the iteration count
of every search-loop run and every reconstruction chain reasoned about. -/
def LOOP_FUEL : ℕ := 1000000

/-- `a_star_search`: snap the endpoints with Python `round`, run the A*
loop from `{start: 0}`, and reconstruct the path from `came_from`. -/
def a_star_search (start goal : ℚ × ℚ) (grid : Grid) : List Cell :=
  let s : Cell := (pround start.1, pround start.2)
  let g : Cell := (pround goal.1, pround goal.2)
  let final := astarLoop g grid LOOP_FUEL
    { frontier := [((0 : ℤ), s)]
      came := fun _ => none
      cost := Function.update (fun _ => none) s (some 0) }
  reconstructLoop final.came s LOOP_FUEL g []

/-- State-threaded `get_neighbors`: the imperative call receives the grid
object and hands it back; the body only reads it. -/
def get_neighbors_st (pos : Cell) (grid : Grid) : List Cell × Grid :=
  ((get_neighbors pos grid), grid)

/-- State-threaded A* loop: the grid object the imperative loop could
mutate is passed through every step explicitly. -/
def astarLoopSt (goal : Cell) : ℕ → AState → Grid → AState × Grid
  | 0, st, grid => (st, grid)
  | fuel + 1, st, grid =>
    match pqGet st.frontier with
    | none => (st, grid)
    | some (e, rest) =>
      if e.2 = goal then (st, grid)
      else
        let ns := get_neighbors_st e.2 grid
        astarLoopSt goal fuel
          (ns.1.foldl (relaxStep goal e.2) { st with frontier := rest }) ns.2

/-- State-threaded `a_star_search`, returning the grid object alongside
the path exactly as the imperative call leaves it. -/
def a_star_search_st (start goal : ℚ × ℚ) (grid : Grid) : List Cell × Grid :=
  let s : Cell := (pround start.1, pround start.2)
  let g : Cell := (pround goal.1, pround goal.2)
  let final := astarLoopSt g LOOP_FUEL
    { frontier := [((0 : ℤ), s)]
      came := fun _ => none
      cost := Function.update (fun _ => none) s (some 0) } grid
  (reconstructLoop final.1.came s LOOP_FUEL g [], final.2)

/-- A concrete unreachable-goal input: only cells `(1,1)` and `(3,3)` are
open, every other cell is a wall, so no non-wall step sequence connects
them. -/
def gridC1 : Grid := fun y x =>
  if (y = 1 ∧ x = 1) ∨ (y = 3 ∧ x = 3) then 0 else 1

/-- An 11×11 grid with border walls, an empty interior except for a single
pellet at cell `(x, y) = (2, 1)`, and walls everywhere outside the 11×11
region. -/
def grid11 : Grid := fun y x =>
  if y ≤ 0 ∨ 10 ≤ y ∨ x ≤ 0 ∨ 10 ≤ x then 1
  else if y = 1 ∧ x = 2 then 2 else 0

/-- `b` is reachable from `a` by one 4-directional non-Wall step: the step
relation generated by the source's own `get_neighbors`. -/
def isStep (grid : Grid) (a b : Cell) : Prop :=
  b ∈ get_neighbors a grid

instance (grid : Grid) (a b : Cell) : Decidable (isStep grid a b) :=
  inferInstanceAs (Decidable (b ∈ get_neighbors a grid))

/-- There is a walk of exactly `n` 4-directional non-Wall steps from `a`
to `b`; the ground-truth reachability the shortest-path claims refer to. -/
def reachLen (grid : Grid) : ℕ → Cell → Cell → Prop
  | 0, a, b => a = b
  | n + 1, a, b => ∃ c ∈ get_neighbors a grid, reachLen grid n c b

/-- `reachLen` is decidable by exhaustive search, so shortest distances can
be computed on concrete grids. -/
def reachLenDec (grid : Grid) : (n : ℕ) → (a b : Cell) → Decidable (reachLen grid n a b)
  | 0, a, b => inferInstanceAs (Decidable (a = b))
  | n + 1, a, b =>
    haveI : DecidablePred fun c => reachLen grid n c b := fun c => reachLenDec grid n c b
    inferInstanceAs (Decidable (∃ c ∈ get_neighbors a grid, reachLen grid n c b))

instance (grid : Grid) (n : ℕ) (a b : Cell) : Decidable (reachLen grid n a b) :=
  reachLenDec grid n a b

/-- The in-bounds cells of the fixed 20×20 grid. -/
def validCells : Finset Cell :=
  Finset.Icc (0 : ℤ) 19 ×ˢ Finset.Icc (0 : ℤ) 19

/-- The cells whose `cost_so_far` entry the search can ever touch: the
in-bounds cells plus the snapped start. -/
def searchCells (s : Cell) : Finset Cell :=
  insert s validCells

/-- Number of cells of `searchCells` holding a `cost_so_far` entry. -/
def costedCard (s : Cell) (cost : Cell → Option ℕ) : ℕ :=
  ((searchCells s).filter fun z => (cost z).isSome).card

/-- Weight of one `cost_so_far` entry for the loop termination measure:
missing entries weigh `401`, present ones their value (always `< 401`
under the loop invariant). -/
def costWeight : Option ℕ → ℕ
  | none => 401
  | some c => c

/-- Termination measure of the A* loop: every genuine iteration strictly
decreases it. -/
def loopMeasure (s : Cell) (st : AState) : ℕ :=
  st.frontier.length + 2 * ∑ z ∈ searchCells s, costWeight (st.cost z)

/-- The relaxation-stable part of the search-loop invariant, for snapped
start `s` and snapped goal `goal`: the start keeps cost `0` and no
predecessor; every costed cell records, through `came`, a strictly
cost-decreasing predecessor chain of valid steps; every frontier entry
dominates the current `cost + heuristic` of its cell; all cost values are
below the number of costed cells (hence `≤ 400`); and only reachable
bookkeeping cells ever get a cost. -/
structure SInv (grid : Grid) (s goal : Cell) (st : AState) : Prop where
  cost_start : st.cost s = some 0
  came_start : st.came s = none
  chain : ∀ z c, st.cost z = some c → z ≠ s →
    ∃ m cm, st.came z = some m ∧ st.cost m = some cm ∧ cm + 1 ≤ c ∧
      z ∈ get_neighbors m grid
  fr : ∀ p n, (p, n) ∈ st.frontier →
    (n = s ∧ p = 0) ∨ ∃ c, st.cost n = some c ∧ (c : ℤ) + heuristic goal n ≤ p
  bound : ∀ z c, st.cost z = some c → c < costedCard s st.cost
  dom : ∀ z, st.cost z ≠ none → z ∈ searchCells s

/-- The full invariant of `a_star_search`'s main loop: the stable part plus
the pending-or-expanded property — every costed cell either still has a
frontier entry no worse than its current `cost + heuristic`, or all its
neighbours are already costed within `cost + 1`. -/
structure AInv (grid : Grid) (s goal : Cell) (st : AState)
    extends SInv grid s goal st : Prop where
  pe : ∀ z c, st.cost z = some c →
    (∃ p, (p, z) ∈ st.frontier ∧ p ≤ (c : ℤ) + heuristic goal z) ∨
    (∀ w ∈ get_neighbors z grid, ∃ cw, st.cost w = some cw ∧ cw ≤ c + 1)

/-- A 4×4 grid whose open cells are exactly `(x, y)` with `x, y ∈ {1, 2}`,
used as a concrete shortest-path instance. -/
def gridW : Grid := fun y x =>
  if 0 < y ∧ y < 3 ∧ 0 < x ∧ x < 3 then 0 else 1

/-- Two cells one unit-cost grid step apart (Manhattan distance `1`),
the relation between consecutive waypoints of an A* path. -/
def unitStep (a b : Cell) : Prop :=
  |b.1 - a.1| + |b.2 - a.2| = 1

instance (a b : Cell) : Decidable (unitStep a b) :=
  inferInstanceAs (Decidable (|b.1 - a.1| + |b.2 - a.2| = 1))

/-! ## Basic lemmas about the embedding -/

theorem setCell_self (g : Grid) (y x : ℤ) (v : ℕ) : setCell g y x v y x = v := by
  simp [setCell]

theorem pround_intCast (z : ℤ) : pround (z : ℚ) = z := by
  unfold pround
  rw [Int.floor_intCast]
  norm_num

/-! ## C5: the snap operation -/

/-- C5 counterexample: the claim says the snap of `0.5` is `1` (ties away
from zero); Python `round` — and hence `pround`, the snap used by
`a_star_search` and `collect_pellet` — maps `0.5` to `0`. -/
theorem pround_half_counterexample : pround (1/2) = 0 ∧ (0 : ℤ) ≠ 1 := by
  constructor
  · unfold pround
    norm_num
  · decide

/-- C5 (amended): the snap operation `pround` used to index the grid
returns a nearest integral cell, and when the coordinate lies exactly
halfway between two integers it rounds to the even one (banker's
rounding), not away from zero. -/
theorem pround_nearest_ties_even (q : ℚ) (z : ℤ) :
    |q - (pround q : ℚ)| ≤ |q - (z : ℚ)| ∧
      (q - (⌊q⌋ : ℚ) = 1/2 → Even (pround q)) := by
  have h0 : (0 : ℚ) ≤ q - ⌊q⌋ := by
    have := Int.floor_le q; linarith
  have h1 : q - (⌊q⌋ : ℚ) < 1 := by
    have := Int.lt_floor_add_one q; linarith
  have hz : (z : ℚ) ≤ (⌊q⌋ : ℚ) ∨ (⌊q⌋ : ℚ) + 1 ≤ (z : ℚ) := by
    rcases le_or_lt z ⌊q⌋ with h | h
    · left; exact_mod_cast h
    · right; exact_mod_cast h
  constructor
  · unfold pround
    split_ifs with hlt hgt hev
    · rw [abs_of_nonneg (by linarith)]
      rcases hz with h | h
      · rw [abs_of_nonneg (by linarith)]; linarith
      · rw [abs_of_nonpos (by linarith)]; linarith
    · rw [show q - ((⌊q⌋ + 1 : ℤ) : ℚ) = q - (⌊q⌋ : ℚ) - 1 by push_cast; ring,
        abs_of_nonpos (by linarith)]
      rcases hz with h | h
      · rw [abs_of_nonneg (by linarith)]; linarith
      · rw [abs_of_nonpos (by linarith)]; linarith
    · rw [abs_of_nonneg (by linarith)]
      rcases hz with h | h
      · rw [abs_of_nonneg (by linarith)]; linarith
      · rw [abs_of_nonpos (by linarith)]; linarith
    · rw [show q - ((⌊q⌋ + 1 : ℤ) : ℚ) = q - (⌊q⌋ : ℚ) - 1 by push_cast; ring,
        abs_of_nonpos (by linarith)]
      rcases hz with h | h
      · rw [abs_of_nonneg (by linarith)]; linarith
      · rw [abs_of_nonpos (by linarith)]; linarith
  · intro htie
    unfold pround
    split_ifs with hlt hgt hev
    · exact absurd hlt (by rw [htie]; norm_num)
    · exact absurd hgt (by rw [htie]; norm_num)
    · exact hev
    · exact Int.even_add_one.mpr hev

/-- Witness for C5's amended theorem at `q = 3/2`, `z = 0`: `pround (3/2)`
is at least as close to `3/2` as `0` is, and the tie rounds to an even
integer. -/
theorem pround_nearest_ties_even_witness :
    |(3/2 : ℚ) - (pround (3/2) : ℚ)| ≤ |(3/2 : ℚ) - ((0 : ℤ) : ℚ)| ∧
      Even (pround (3/2)) := by
  refine ⟨(pround_nearest_ties_even (3/2) 0).1,
    (pround_nearest_ties_even (3/2) 0).2 ?_⟩
  rw [show ⌊(3/2 : ℚ)⌋ = 1 by norm_num [Int.floor_eq_iff]]
  norm_num

/-! ## C8: collection idempotence -/

/-- C8: collecting twice at the same position awards the reward at most
once — the second `collect_pellet` call is the identity on the
`(player, grid)` pair, so it returns zero reward, adds nothing to the
score, and leaves the grid unchanged. -/
theorem collect_pellet_idempotent (p : Player) (grid : Grid) :
    collect_pellet (collect_pellet p grid).1 (collect_pellet p grid).2 =
      collect_pellet p grid := by
  unfold collect_pellet
  by_cases h : grid (pround p.position.2) (pround p.position.1) = 2
  · simp only [h, if_pos trivial, if_true]
    simp [setCell_self]
  · simp [h]

/-! ## C9: capture threshold -/

theorem ghost_hit_ne_none (pl : Player) (gs : List Ghost) :
    ghost_hit pl gs ≠ none ↔
      ∃ gh ∈ gs, (pl.position.1 - gh.position.1) ^ 2 +
        (pl.position.2 - gh.position.2) ^ 2 < 1/4 := by
  induction gs with
  | nil => simp [ghost_hit]
  | cons g rest ih =>
    unfold ghost_hit
    split_ifs with h
    · constructor
      · intro _
        exact ⟨g, List.mem_cons_self _ _, h⟩
      · intro _
        simp
    · rw [ih]
      constructor
      · rintro ⟨gh, hmem, hlt⟩
        exact ⟨gh, List.mem_cons_of_mem _ hmem, hlt⟩
      · rintro ⟨gh, hmem, hlt⟩
        rcases List.mem_cons.mp hmem with rfl | hmem2
        · exact absurd hlt h
        · exact ⟨gh, hmem2, hlt⟩

theorem rat_sqrt_lt_half (a : ℚ) : Real.sqrt (a : ℝ) < 1/2 ↔ a < 1/4 := by
  rw [Real.sqrt_lt' (by norm_num : (0 : ℝ) < 1/2)]
  rw [show ((1 : ℝ)/2) ^ 2 = ((1/4 : ℚ) : ℝ) by norm_num]
  exact_mod_cast Iff.rfl

theorem check_collision_cons (pl : Player) (rest : List Player)
    (gs : List Ghost) :
    check_collision (pl :: rest) gs =
      match ghost_hit pl gs with
      | some n => some n
      | none => check_collision rest gs := rfl

/-- C9: `check_collision` reports a capture exactly when some
`(player, ghost)` pair is at Euclidean distance strictly below `0.5`;
in particular a pair at distance exactly `0.5` is not reported. -/
theorem check_collision_iff (ps : List Player) (gs : List Ghost) :
    check_collision ps gs ≠ none ↔
      ∃ pl ∈ ps, ∃ gh ∈ gs,
        Real.sqrt (((pl.position.1 - gh.position.1) ^ 2 +
          (pl.position.2 - gh.position.2) ^ 2 : ℚ)) < 1/2 := by
  induction ps with
  | nil => simp [check_collision]
  | cons pl rest ih =>
    rcases hg : ghost_hit pl gs with _ | n
    · have hcc : check_collision (pl :: rest) gs = check_collision rest gs := by
        rw [check_collision_cons, hg]
      rw [hcc, ih]
      constructor
      · rintro ⟨q, hq, gh, hghmem, hlt⟩
        exact ⟨q, List.mem_cons_of_mem _ hq, gh, hghmem, hlt⟩
      · rintro ⟨q, hqmem, gh, hghmem, hlt⟩
        rcases List.mem_cons.mp hqmem with rfl | hqrest
        · exact absurd ((ghost_hit_ne_none q gs).mpr
            ⟨gh, hghmem, (rat_sqrt_lt_half _).mp hlt⟩) (by simp [hg])
        · exact ⟨q, hqrest, gh, hghmem, hlt⟩
    · have hcc : check_collision (pl :: rest) gs = some n := by
        rw [check_collision_cons, hg]
      obtain ⟨gh, hmem, hlt⟩ := (ghost_hit_ne_none pl gs).mp (by simp [hg])
      rw [hcc]
      constructor
      · intro _
        exact ⟨pl, List.mem_cons_self _ _, gh, hmem, (rat_sqrt_lt_half _).mpr hlt⟩
      · intro _
        simp


/-! ## C10: the search never writes to the grid -/

theorem astarLoopSt_eq (goal : Cell) :
    ∀ (fuel : ℕ) (st : AState) (grid : Grid),
      astarLoopSt goal fuel st grid = (astarLoop goal grid fuel st, grid) := by
  intro fuel
  induction fuel with
  | zero => intro st grid; rfl
  | succ n ih =>
    intro st grid
    rw [astarLoopSt, astarLoop]
    rcases h : pqGet st.frontier with _ | e
    · rfl
    · by_cases hg : e.1.2 = goal
      · simp [hg]
      · simp only [hg, if_false, ite_false]
        rw [ih]
        rfl

/-- C10: `a_star_search` only reads the grid.  The state-threaded search,
which passes the grid object through every step the imperative call
performs, returns it unchanged alongside the same path. -/
theorem a_star_search_preserves_grid (start goal : ℚ × ℚ) (grid : Grid) :
    a_star_search_st start goal grid = (a_star_search start goal grid, grid) := by
  unfold a_star_search_st a_star_search
  simp only [astarLoopSt_eq]

/-! ## C2: path-driven motion is proportional, not fixed-step -/

/-- C2 counterexample: a hunter at `(0.5, 0)` with head waypoint `(1, 0)`
and speed `0.1` moves its x-coordinate by `0.05 = speed * offset`, not by
the fixed speed value `0.1` the claim asserts. -/
theorem ghost_move_fixed_step_counterexample :
    (Ghost.move { position := (1/2, 0), speed := 1/10, path := [(1, 0)] }).position.1
        - 1/2 = 1/20 ∧ ((1/20 : ℚ) ≠ 1/10) :=
  of_decide_eq_true (by with_unfolding_all rfl)

/-- C2 (amended): one tick of path-driven motion computes exactly
`position += speed * (target − position)` on each axis — the per-axis
change is proportional to the remaining offset — whenever the
arrival-snap condition does not fire. -/
theorem ghost_move_proportional_step (g : Ghost) (w : Cell) (rest : List Cell)
    (hpath : g.path = w :: rest)
    (hns : ¬(|g.position.1 + g.speed * ((w.1 : ℚ) - g.position.1) - (w.1 : ℚ)| < 1/10 ∧
        |g.position.2 + g.speed * ((w.2 : ℚ) - g.position.2) - (w.2 : ℚ)| < 1/10)) :
    (Ghost.move g).position.1 - g.position.1 = g.speed * ((w.1 : ℚ) - g.position.1) ∧
      (Ghost.move g).position.2 - g.position.2 = g.speed * ((w.2 : ℚ) - g.position.2) := by
  unfold Ghost.move
  rw [hpath]
  simp only [if_neg hns]
  constructor <;> ring

/-- Witness for C2's amended theorem: a hunter at the origin with waypoint
`(5, 5)` and speed `0.1` moves by `0.1 * 5` on each axis. -/
theorem ghost_move_proportional_step_witness :
    (Ghost.move { position := (0, 0), speed := 1/10, path := [(5, 5)] }).position.1
        - 0 = 1/10 * (((5 : ℤ) : ℚ) - 0) ∧
      (Ghost.move { position := (0, 0), speed := 1/10, path := [(5, 5)] }).position.2
        - 0 = 1/10 * (((5 : ℤ) : ℚ) - 0) := by
  have h := ghost_move_proportional_step
    { position := (0, 0), speed := 1/10, path := [(5, 5)] } (5, 5) [] rfl
    (by simp only [abs_lt]; push_cast; norm_num)
  exact h

/-! ## C6: the two-tick rightward scenario -/

/-- C6 counterexample: a runner at `(1, 1)` on `grid11` whose intent is the
direction the source labels `RIGHT` — the vector `(-1, 0)` — is blocked by
the left border wall and stays at `(1, 1)` with score `0` after two ticks,
not at `(2, 1)` with score `10`. -/
theorem runner_right_blocked_counterexample :
    (let p0 := Player.init 1 1 1 "Player 1"
     let r1 := Player.move p0 grid11
     let r2 := Player.move r1.1 r1.2
     r2.1.position = (1, 1) ∧ r2.1.score = 0 ∧
       ¬(r2.1.position = (2, 1) ∧ r2.1.score = 10)) :=
  of_decide_eq_true (by with_unfolding_all rfl)

/-- C6 (amended): with intent `(1, 0)` — the vector that actually moves the
runner toward larger x, labelled `LEFT` in the source's `DIRECTIONS` — the
runner at `(1, 1)` with speed `0.5` on the bordered 11×11 grid reaches
`(2, 1)` after two ticks and collects the pellet at `(2, 1)`, for a score
of `10`. -/
theorem runner_two_ticks_collects :
    (let p0 := { Player.init 1 1 1 "Player 1" with direction := DIRECTIONS .LEFT }
     let r1 := Player.move p0 grid11
     let r2 := Player.move r1.1 r1.2
     r2.1.position = (2, 1) ∧ r2.1.score = 10 ∧ r2.2 1 2 = 0) :=
  of_decide_eq_true (by with_unfolding_all rfl)

/-! ## C7: constructors perform no validation -/

/-- C7 counterexample: cell `(0, 0)` of `create_grid` is a Wall, yet
`Player.init` and `Ghost.init` happily create entities there — no
`InvalidConfiguration` error exists anywhere in the code. -/
theorem constructors_no_validation_counterexample :
    create_grid 0 0 = 1 ∧ (Player.init 1 0 0 "Player 1").position = (0, 0) ∧
      (Ghost.init 0 0).position = (0, 0) :=
  of_decide_eq_true (by with_unfolding_all rfl)

/-- C7 (amended): construction is total and unvalidated — `create_grid`
takes no size argument and always builds the fixed 20×20 maze, and the
`Player`/`Ghost` constructors always create an entity carrying exactly the
given start cell (even one inside a Wall) with the hardcoded speeds `0.5`
and `0.1`. -/
theorem constructors_total (id : ℤ) (x y : ℚ) (name : String) :
    (Player.init id x y name).position = (x, y) ∧
      (Player.init id x y name).speed = 1/2 ∧
      (Player.init id x y name).score = 0 ∧
      (Ghost.init x y).position = (x, y) ∧
      (Ghost.init x y).speed = 1/10 ∧
      (Ghost.init x y).path = [] :=
  ⟨rfl, rfl, rfl, rfl, rfl, rfl⟩

/-! ## C1: the unreachable-goal path is not empty -/

/-- C1 (code bug): on `gridC1` the snapped start `(1, 1)` has no non-wall
neighbours at all, so the snapped goal `(3, 3)` is unreachable; the claim
and the spec say the returned path is empty, but the source's
reconstruction loop appends the goal before discovering it has no
predecessor, so `a_star_search` returns the bogus singleton `[(3, 3)]`. -/
theorem a_star_unreachable_goal_singleton :
    get_neighbors (1, 1) gridC1 = [] ∧
      a_star_search (1, 1) (3, 3) gridC1 = [(3, 3)] ∧
      a_star_search (1, 1) (3, 3) gridC1 ≠ [] :=
  of_decide_eq_true (by with_unfolding_all rfl)

/-! ## C4: waypoint convergence -/

theorem decay_exists (s : ℚ) (hs0 : 0 < s) (_hs1 : s ≤ 1) :
    ∃ k : ℕ, (1 - s) ^ k < 1/10 :=
  exists_pow_lt_of_lt_one (by norm_num : (0 : ℚ) < 1/10) (by linarith : 1 - s < 1)

theorem unitStep_four_cases (a w : Cell) (h : unitStep a w) :
    (w.1 - a.1 = 1 ∧ w.2 - a.2 = 0) ∨ (w.1 - a.1 = -1 ∧ w.2 - a.2 = 0) ∨
      (w.1 - a.1 = 0 ∧ w.2 - a.2 = 1) ∨ (w.1 - a.1 = 0 ∧ w.2 - a.2 = -1) := by
  unfold unitStep at h
  rcases abs_cases (w.1 - a.1) with ⟨he, hs⟩ | ⟨he, hs⟩ <;>
    rcases abs_cases (w.2 - a.2) with ⟨hf, ht⟩ | ⟨hf, ht⟩ <;> omega

theorem unitStep_absQ (a w : Cell) (h : unitStep a w) :
    (|(w.1 : ℚ) - (a.1 : ℚ)| = 1 ∨ |(w.2 : ℚ) - (a.2 : ℚ)| = 1) ∧
      |(w.1 : ℚ) - (a.1 : ℚ)| ≤ 1 ∧ |(w.2 : ℚ) - (a.2 : ℚ)| ≤ 1 := by
  have e1 : (w.1 : ℚ) - (a.1 : ℚ) = ((w.1 - a.1 : ℤ) : ℚ) := by push_cast; ring
  have e2 : (w.2 : ℚ) - (a.2 : ℚ) = ((w.2 - a.2 : ℤ) : ℚ) := by push_cast; ring
  rcases unitStep_four_cases a w h with ⟨h1, h2⟩ | ⟨h1, h2⟩ | ⟨h1, h2⟩ | ⟨h1, h2⟩ <;>
    rw [e1, e2, h1, h2] <;> norm_num

/-- `Ghost.move` on a hunter with a non-empty path, with the let-bindings
of the source body expanded. -/
theorem ghost_move_cons (px py s : ℚ) (w : Cell) (rest : List Cell) :
    Ghost.move { position := (px, py), speed := s, path := w :: rest } =
      if |px + s * ((w.1 : ℚ) - px) - (w.1 : ℚ)| < 1/10 ∧
          |py + s * ((w.2 : ℚ) - py) - (w.2 : ℚ)| < 1/10 then
        { position := ((w.1 : ℚ), (w.2 : ℚ)), speed := s, path := rest }
      else
        { position := (px + s * ((w.1 : ℚ) - px), py + s * ((w.2 : ℚ) - py)),
          speed := s, path := w :: rest } := rfl

theorem ghost_leg_mid (s : ℚ) (hs0 : 0 < s) (hs1 : s ≤ 1) (a w : Cell)
    (rest : List Cell) (hstep : unitStep a w) :
    ∀ j, j < Nat.find (decay_exists s hs0 hs1) →
      Ghost.move^[j]
          { position := ((a.1 : ℚ), (a.2 : ℚ)), speed := s, path := w :: rest } =
        { position :=
            ((w.1 : ℚ) - (1 - s) ^ j * ((w.1 : ℚ) - (a.1 : ℚ)),
             (w.2 : ℚ) - (1 - s) ^ j * ((w.2 : ℚ) - (a.2 : ℚ))),
          speed := s, path := w :: rest } := by
  have hc0 : (0 : ℚ) ≤ 1 - s := by linarith
  intro j
  induction j with
  | zero =>
    intro _
    simp
  | succ n ih =>
    intro hlt
    have hn : n < Nat.find (decay_exists s hs0 hs1) :=
      lt_trans (Nat.lt_succ_self n) hlt
    have hbig : ¬((1 - s) ^ (n + 1) < 1/10) :=
      Nat.find_min (decay_exists s hs0 hs1) hlt
    rw [Function.iterate_succ_apply', ih hn, ghost_move_cons]
    have key1 :
        ((w.1 : ℚ) - (1 - s) ^ n * ((w.1 : ℚ) - (a.1 : ℚ))) +
            s * ((w.1 : ℚ) - ((w.1 : ℚ) - (1 - s) ^ n * ((w.1 : ℚ) - (a.1 : ℚ)))) -
            (w.1 : ℚ) = -((1 - s) ^ (n + 1) * ((w.1 : ℚ) - (a.1 : ℚ))) := by
      ring
    have key2 :
        ((w.2 : ℚ) - (1 - s) ^ n * ((w.2 : ℚ) - (a.2 : ℚ))) +
            s * ((w.2 : ℚ) - ((w.2 : ℚ) - (1 - s) ^ n * ((w.2 : ℚ) - (a.2 : ℚ)))) -
            (w.2 : ℚ) = -((1 - s) ^ (n + 1) * ((w.2 : ℚ) - (a.2 : ℚ))) := by
      ring
    rw [if_neg ?hcond]
    case hcond =>
      rw [key1, key2, abs_neg, abs_neg, abs_mul, abs_mul,
        abs_of_nonneg (pow_nonneg hc0 (n + 1))]
      rintro ⟨hx, hy⟩
      apply hbig
      rcases (unitStep_absQ a w hstep).1 with h | h
      · rw [h, mul_one] at hx
        exact hx
      · rw [h, mul_one] at hy
        exact hy
    simp only [Ghost.mk.injEq, Prod.mk.injEq]
    exact ⟨⟨by ring, by ring⟩, by trivial, by trivial⟩

theorem ghost_leg (s : ℚ) (hs0 : 0 < s) (hs1 : s ≤ 1) (a w : Cell)
    (rest : List Cell) (hstep : unitStep a w) :
    Ghost.move^[Nat.find (decay_exists s hs0 hs1)]
        { position := ((a.1 : ℚ), (a.2 : ℚ)), speed := s, path := w :: rest } =
      { position := ((w.1 : ℚ), (w.2 : ℚ)), speed := s, path := rest } := by
  have hc0 : (0 : ℚ) ≤ 1 - s := by linarith
  have hT1 : 0 < Nat.find (decay_exists s hs0 hs1) := by
    rcases Nat.eq_zero_or_pos (Nat.find (decay_exists s hs0 hs1)) with h | h
    · exfalso
      have hsp := Nat.find_spec (decay_exists s hs0 hs1)
      rw [h] at hsp
      norm_num at hsp
    · exact h
  obtain ⟨n, hn⟩ : ∃ n, Nat.find (decay_exists s hs0 hs1) = n + 1 :=
    ⟨Nat.find (decay_exists s hs0 hs1) - 1, by omega⟩
  have hsmall : (1 - s) ^ (n + 1) < 1/10 := by
    have hsp := Nat.find_spec (decay_exists s hs0 hs1)
    rwa [hn] at hsp
  rw [hn, Function.iterate_succ_apply',
    ghost_leg_mid s hs0 hs1 a w rest hstep n (by omega), ghost_move_cons]
  have key1 :
      ((w.1 : ℚ) - (1 - s) ^ n * ((w.1 : ℚ) - (a.1 : ℚ))) +
          s * ((w.1 : ℚ) - ((w.1 : ℚ) - (1 - s) ^ n * ((w.1 : ℚ) - (a.1 : ℚ)))) -
          (w.1 : ℚ) = -((1 - s) ^ (n + 1) * ((w.1 : ℚ) - (a.1 : ℚ))) := by
    ring
  have key2 :
      ((w.2 : ℚ) - (1 - s) ^ n * ((w.2 : ℚ) - (a.2 : ℚ))) +
          s * ((w.2 : ℚ) - ((w.2 : ℚ) - (1 - s) ^ n * ((w.2 : ℚ) - (a.2 : ℚ)))) -
          (w.2 : ℚ) = -((1 - s) ^ (n + 1) * ((w.2 : ℚ) - (a.2 : ℚ))) := by
    ring
  rw [if_pos ?hcond]
  case hcond =>
    rw [key1, key2, abs_neg, abs_neg, abs_mul, abs_mul,
      abs_of_nonneg (pow_nonneg hc0 (n + 1))]
    constructor
    · calc (1 - s) ^ (n + 1) * |(w.1 : ℚ) - (a.1 : ℚ)|
          ≤ (1 - s) ^ (n + 1) * 1 :=
            mul_le_mul_of_nonneg_left (unitStep_absQ a w hstep).2.1
              (pow_nonneg hc0 (n + 1))
        _ = (1 - s) ^ (n + 1) := mul_one _
        _ < 1/10 := hsmall
    · calc (1 - s) ^ (n + 1) * |(w.2 : ℚ) - (a.2 : ℚ)|
          ≤ (1 - s) ^ (n + 1) * 1 :=
            mul_le_mul_of_nonneg_left (unitStep_absQ a w hstep).2.2
              (pow_nonneg hc0 (n + 1))
        _ = (1 - s) ^ (n + 1) := mul_one _
        _ < 1/10 := hsmall

/-- C4 counterexample: a hunter at `(1, 1)` with the single-waypoint path
`[(2, 1)]` and speed `0.5` still has a non-empty path after
`ceil(N / s) + N = ceil(1 / 0.5) + 1 = 3` ticks — the spec's bound is too
small for the proportional motion the code performs. -/
theorem ghost_path_bound_counterexample :
    (Ghost.move^[(⌈(1 : ℚ) / (1/2)⌉.toNat + 1)]
        { position := (1, 1), speed := 1/2, path := [(2, 1)] }).path ≠ [] :=
  of_decide_eq_true (by with_unfolding_all rfl)

/-- C4 (amended): for a hunter at an integral cell holding a path of `N`
waypoints, each one unit-cost grid step from the previous and the first
one step from the hunter, and any speed `0 < s ≤ 1`, the path empties
after `N * T` ticks, where `T` is the least `k` with `(1-s)^k < 0.1` — the
per-waypoint tick count forced by the code's geometric approach to each
waypoint (for `s = 0.5`, `T = 4`, already above the claim's
`ceil(N/s) + N = 3` at `N = 1`). -/
theorem ghost_path_consumed (s : ℚ) (hs0 : 0 < s) (hs1 : s ≤ 1)
    (a : Cell) (path : List Cell) (hchain : List.Chain unitStep a path) :
    (Ghost.move^[path.length * Nat.find (decay_exists s hs0 hs1)]
        { position := ((a.1 : ℚ), (a.2 : ℚ)), speed := s, path := path }).path
      = [] := by
  induction path generalizing a with
  | nil => simp
  | cons w rest ih =>
    rcases List.chain_cons.mp hchain with ⟨hstep, hchain2⟩
    rw [List.length_cons,
      show (rest.length + 1) * Nat.find (decay_exists s hs0 hs1) =
        rest.length * Nat.find (decay_exists s hs0 hs1) +
          Nat.find (decay_exists s hs0 hs1) by ring,
      Function.iterate_add_apply,
      ghost_leg s hs0 hs1 a w rest hstep]
    exact ih w hchain2

/-- Witness for C4's amended theorem: `s = 1/2` gives `T = 4`, and a
one-waypoint unit-step path from `(1, 1)` is consumed in `4` ticks. -/
theorem ghost_path_consumed_witness :
    List.Chain unitStep (1, 1) [(2, 1)] ∧
      (Ghost.move^[4]
          { position := (1, 1), speed := 1/2, path := [(2, 1)] }).path = [] := by
  constructor
  · exact List.Chain.cons (by decide) List.Chain.nil
  · have hfind : Nat.find (decay_exists (1/2) (by norm_num) (by norm_num)) = 4 := by
      rw [Nat.find_eq_iff]
      constructor
      · norm_num
      · intro k hk
        interval_cases k <;> norm_num
    have h := ghost_path_consumed (1/2) (by norm_num) (by norm_num) (1, 1)
      [(2, 1)] (List.Chain.cons (by decide) List.Chain.nil)
    rw [hfind] at h
    simpa using h

/-! ## C3 preliminaries: the frontier order and `pqGet` -/

theorem entryLe_refl (a : Entry) : entryLe a a := by
  unfold entryLe; omega

theorem entryLe_trans {a b c : Entry} (h1 : entryLe a b) (h2 : entryLe b c) :
    entryLe a c := by
  unfold entryLe at h1 h2 ⊢; omega

theorem entryLe_total (a b : Entry) : entryLe a b ∨ entryLe b a := by
  unfold entryLe; omega

theorem entryLe_fst {a b : Entry} (h : entryLe a b) : a.1 ≤ b.1 := by
  unfold entryLe at h; omega

theorem pick_mem : ∀ (es : List Entry) (a : Entry),
    es.foldl (fun acc x => if entryLe acc x then acc else x) a ∈ a :: es := by
  intro es
  induction es with
  | nil => intro a; simp
  | cons e es ih =>
    intro a
    simp only [List.foldl_cons]
    by_cases h : entryLe a e
    · rw [if_pos h]
      rcases List.mem_cons.mp (ih a) with h1 | h1
      · rw [h1]; exact List.mem_cons_self _ _
      · exact List.mem_cons_of_mem _ (List.mem_cons_of_mem _ h1)
    · rw [if_neg h]
      rcases List.mem_cons.mp (ih e) with h1 | h1
      · rw [h1]; exact List.mem_cons_of_mem _ (List.mem_cons_self _ _)
      · exact List.mem_cons_of_mem _ (List.mem_cons_of_mem _ h1)

theorem pick_le : ∀ (es : List Entry) (a x : Entry), x ∈ a :: es →
    entryLe (es.foldl (fun acc x => if entryLe acc x then acc else x) a) x := by
  intro es
  induction es with
  | nil =>
    intro a x hx
    rcases List.mem_cons.mp hx with hx1 | hx2
    · subst hx1
      exact entryLe_refl x
    · simp at hx2
  | cons e es ih =>
    intro a x hx
    simp only [List.foldl_cons]
    by_cases h : entryLe a e
    · rw [if_pos h]
      rcases List.mem_cons.mp hx with hx1 | hx2
      · subst hx1
        exact ih x x (List.mem_cons_self _ _)
      · rcases List.mem_cons.mp hx2 with hx1 | hx3
        · subst hx1
          exact entryLe_trans (ih a a (List.mem_cons_self _ _)) h
        · exact ih a x (List.mem_cons_of_mem _ hx3)
    · rw [if_neg h]
      have hea : entryLe e a := (entryLe_total a e).resolve_left h
      rcases List.mem_cons.mp hx with hx1 | hx2
      · subst hx1
        exact entryLe_trans (ih e e (List.mem_cons_self _ _)) hea
      · rcases List.mem_cons.mp hx2 with hx1 | hx3
        · subst hx1
          exact ih x x (List.mem_cons_self _ _)
        · exact ih e x (List.mem_cons_of_mem _ hx3)

theorem perm_cons_erase_entry : ∀ (l : List Entry) (e : Entry), e ∈ l →
    l.Perm (e :: l.erase e) := by
  intro l
  induction l with
  | nil =>
    intro e he
    simp at he
  | cons a as ih =>
    intro e he
    rw [List.erase_cons]
    by_cases hae : a = e
    · subst hae
      simp
    · rw [if_neg (by simpa using hae)]
      rcases List.mem_cons.mp he with hx1 | hx2
      · exact absurd hx1.symm hae
      · exact ((ih e hx2).cons a).trans (List.Perm.swap e a _)

theorem pqGet_none_iff (l : List Entry) : pqGet l = none ↔ l = [] := by
  cases l <;> simp [pqGet]

theorem pqGet_some_spec {l : List Entry} {e : Entry} {rest : List Entry}
    (h : pqGet l = some (e, rest)) :
    e ∈ l ∧ (∀ x ∈ l, entryLe e x) ∧ l.Perm (e :: rest) := by
  cases l with
  | nil => simp [pqGet] at h
  | cons a as =>
    simp only [pqGet, Option.some.injEq, Prod.mk.injEq] at h
    obtain ⟨he, hrest⟩ := h
    subst he
    refine ⟨pick_mem as a, fun x hx => pick_le as a x hx, ?_⟩
    rw [← hrest]
    exact perm_cons_erase_entry _ _ (pick_mem as a)

/-! ## C3 preliminaries: neighbours, heuristic, reachability -/

theorem get_neighbors_offsets {grid : Grid} {z w : Cell}
    (h : w ∈ get_neighbors z grid) :
    (0 ≤ w.1 ∧ w.1 < GRID_SIZE ∧ 0 ≤ w.2 ∧ w.2 < GRID_SIZE) ∧
      ((w.1 = z.1 ∧ w.2 = z.2 + 1) ∨ (w.1 = z.1 + 1 ∧ w.2 = z.2) ∨
        (w.1 = z.1 ∧ w.2 = z.2 - 1) ∨ (w.1 = z.1 - 1 ∧ w.2 = z.2)) := by
  unfold get_neighbors at h
  rcases List.mem_filterMap.mp h with ⟨d, hd, hf⟩
  simp only [List.mem_cons, List.not_mem_nil, or_false] at hd
  rcases hd with rfl | rfl | rfl | rfl <;>
  · split_ifs at hf with hC
    obtain ⟨hb1, hb2, hb3, hb4, hb5⟩ := hC
    have hw := Option.some.inj hf
    constructor
    · rw [← hw]
      refine ⟨by omega, by omega, by omega, by omega⟩
    · rw [← hw]
      omega

theorem get_neighbors_valid {grid : Grid} {z w : Cell}
    (h : w ∈ get_neighbors z grid) : w ∈ validCells := by
  obtain ⟨⟨h1, h2, h3, h4⟩, hoff⟩ := get_neighbors_offsets h
  unfold GRID_SIZE at h2 h4
  unfold validCells
  simp only [Finset.mem_product, Finset.mem_Icc]
  omega

theorem get_neighbors_ne {grid : Grid} {z w : Cell}
    (h : w ∈ get_neighbors z grid) : w ≠ z := by
  obtain ⟨hb, hoff⟩ := get_neighbors_offsets h
  intro hzw
  subst hzw
  omega

theorem heuristic_nonneg (a b : Cell) : 0 ≤ heuristic a b :=
  add_nonneg (abs_nonneg _) (abs_nonneg _)

theorem heuristic_self (a : Cell) : heuristic a a = 0 := by
  unfold heuristic; simp

theorem heuristic_step {grid : Grid} {goal z w : Cell}
    (h : w ∈ get_neighbors z grid) :
    heuristic goal z ≤ heuristic goal w + 1 := by
  obtain ⟨hb, hoff⟩ := get_neighbors_offsets h
  have t1 := abs_sub_le goal.1 w.1 z.1
  have t2 := abs_sub_le goal.2 w.2 z.2
  have hone : |w.1 - z.1| + |w.2 - z.2| = 1 := by
    rcases hoff with ⟨h1, h2⟩ | ⟨h1, h2⟩ | ⟨h1, h2⟩ | ⟨h1, h2⟩ <;>
      rw [h1, h2]
    · rw [show z.1 - z.1 = 0 from sub_self _,
        show z.2 + 1 - z.2 = (1 : ℤ) from by ring]
      norm_num
    · rw [show z.1 + 1 - z.1 = (1 : ℤ) from by ring,
        show z.2 - z.2 = 0 from sub_self _]
      norm_num
    · rw [show z.1 - z.1 = 0 from sub_self _,
        show z.2 - 1 - z.2 = (-1 : ℤ) from by ring]
      norm_num
    · rw [show z.1 - 1 - z.1 = (-1 : ℤ) from by ring,
        show z.2 - z.2 = 0 from sub_self _]
      norm_num
  unfold heuristic
  linarith

theorem reachLen_trans {grid : Grid} :
    ∀ {m : ℕ} {a b : Cell} {k : ℕ} {c : Cell},
      reachLen grid m a b → reachLen grid k b c → reachLen grid (m + k) a c := by
  intro m
  induction m with
  | zero =>
    intro a b k c h1 h2
    have : a = b := h1
    subst this
    simpa using h2
  | succ n ih =>
    intro a b k c h1 h2
    obtain ⟨w, hw, hr⟩ := h1
    rw [Nat.succ_add]
    exact ⟨w, hw, ih hr h2⟩

theorem reachLen_snoc {grid : Grid} {m : ℕ} {a b c : Cell}
    (h1 : reachLen grid m a b) (h2 : c ∈ get_neighbors b grid) :
    reachLen grid (m + 1) a c :=
  reachLen_trans h1 ⟨c, h2, rfl⟩

theorem chain_reachLen {grid : Grid} :
    ∀ (l : List Cell) (a : Cell), List.Chain (isStep grid) a l →
      reachLen grid l.length a ((a :: l).getLast (List.cons_ne_nil a l)) := by
  intro l
  induction l with
  | nil =>
    intro a hch
    simp only [List.length_nil]
    rfl
  | cons b l ih =>
    intro a hch
    rcases List.chain_cons.mp hch with ⟨hab, hbl⟩
    refine ⟨b, hab, ?_⟩
    have hlast := ih b hbl
    rwa [show ((a :: b :: l).getLast (List.cons_ne_nil a (b :: l))) =
      ((b :: l).getLast (List.cons_ne_nil b l)) from List.getLast_cons _]

theorem chain_snoc {R : Cell → Cell → Prop} :
    ∀ (l : List Cell) (a b : Cell), List.Chain R a l →
      R ((a :: l).getLast (List.cons_ne_nil a l)) b → List.Chain R a (l ++ [b]) := by
  intro l
  induction l with
  | nil =>
    intro a b hch hR
    simp only [List.nil_append]
    exact List.Chain.cons (by simpa using hR) List.Chain.nil
  | cons c l ih =>
    intro a b hch hR
    rcases List.chain_cons.mp hch with ⟨hac, hcl⟩
    refine List.chain_cons.mpr ⟨hac, ih c b hcl ?_⟩
    rwa [show ((a :: c :: l).getLast (List.cons_ne_nil a (c :: l))) =
      ((c :: l).getLast (List.cons_ne_nil c l)) from List.getLast_cons _] at hR

/-! ## C3: relaxation-step lemmas -/

theorem relaxStep_improve {goal current : Cell} {st : AState} {n : Cell}
    (h : st.cost n = none ∨
      (st.cost current).getD 0 + 1 < (st.cost n).getD 0) :
    relaxStep goal current st n =
      { frontier := st.frontier ++
          [((((st.cost current).getD 0 + 1 : ℕ) : ℤ) + heuristic goal n, n)]
        came := Function.update st.came n (some current)
        cost := Function.update st.cost n (some ((st.cost current).getD 0 + 1)) } := by
  unfold relaxStep
  rw [if_pos h]

theorem relaxStep_skip {goal current : Cell} {st : AState} {n : Cell}
    (h : ¬(st.cost n = none ∨
      (st.cost current).getD 0 + 1 < (st.cost n).getD 0)) :
    relaxStep goal current st n = st := by
  unfold relaxStep
  rw [if_neg h]

theorem relaxStep_ne {goal current : Cell} {st : AState} {n w : Cell} (h : w ≠ n) :
    (relaxStep goal current st n).cost w = st.cost w ∧
      (relaxStep goal current st n).came w = st.came w := by
  unfold relaxStep
  split_ifs with hc
  · exact ⟨Function.update_noteq h _ _, Function.update_noteq h _ _⟩
  · exact ⟨rfl, rfl⟩

theorem relaxStep_cost_le {goal current : Cell} {st : AState} {n w : Cell} {c0 : ℕ}
    (h : st.cost w = some c0) :
    ∃ c, c ≤ c0 ∧ (relaxStep goal current st n).cost w = some c := by
  by_cases hw : w = n
  · subst hw
    unfold relaxStep
    split_ifs with hc
    · refine ⟨(st.cost current).getD 0 + 1, ?_, Function.update_same _ _ _⟩
      rcases hc with hc | hc
      · rw [h] at hc
        exact absurd hc (by simp)
      · rw [h] at hc
        simp only [Option.getD_some] at hc
        exact le_of_lt hc
    · exact ⟨c0, le_refl _, h⟩
  · exact ⟨c0, le_refl _, by rw [(relaxStep_ne hw).1, h]⟩

theorem relaxStep_frontier_ext {goal current : Cell} {st : AState} {n : Cell} :
    ∃ ex, (relaxStep goal current st n).frontier = st.frontier ++ ex := by
  unfold relaxStep
  split_ifs
  · exact ⟨_, rfl⟩
  · exact ⟨[], (List.append_nil _).symm⟩

/-! ## C3: relaxation-fold lemmas -/

theorem relaxList_untouched {goal current : Cell} :
    ∀ (ns : List Cell) (st : AState) (w : Cell), w ∉ ns →
      (ns.foldl (relaxStep goal current) st).cost w = st.cost w ∧
        (ns.foldl (relaxStep goal current) st).came w = st.came w := by
  intro ns
  induction ns with
  | nil =>
    intro st w _
    exact ⟨rfl, rfl⟩
  | cons n ns ih =>
    intro st w h
    have h1 : w ≠ n := fun hh => h (by rw [hh]; exact List.mem_cons_self _ _)
    have h2 : w ∉ ns := fun hh => h (List.mem_cons_of_mem _ hh)
    simp only [List.foldl_cons]
    obtain ⟨hc, hm⟩ := ih (relaxStep goal current st n) w h2
    rw [hc, hm]
    exact relaxStep_ne h1

theorem relaxList_cost_le {goal current : Cell} :
    ∀ (ns : List Cell) (st : AState) (w : Cell) (c0 : ℕ), st.cost w = some c0 →
      ∃ c, c ≤ c0 ∧ (ns.foldl (relaxStep goal current) st).cost w = some c := by
  intro ns
  induction ns with
  | nil =>
    intro st w c0 h
    exact ⟨c0, le_refl _, h⟩
  | cons n ns ih =>
    intro st w c0 h
    simp only [List.foldl_cons]
    obtain ⟨c1, hc1, h1⟩ := @relaxStep_cost_le goal current st n w c0 h
    obtain ⟨c, hc, h2⟩ := ih (relaxStep goal current st n) w c1 h1
    exact ⟨c, le_trans hc hc1, h2⟩

theorem relaxList_frontier_ext {goal current : Cell} :
    ∀ (ns : List Cell) (st : AState),
      ∃ ex, (ns.foldl (relaxStep goal current) st).frontier = st.frontier ++ ex := by
  intro ns
  induction ns with
  | nil =>
    intro st
    exact ⟨[], (List.append_nil _).symm⟩
  | cons n ns ih =>
    intro st
    simp only [List.foldl_cons]
    obtain ⟨ex1, h1⟩ := @relaxStep_frontier_ext goal current st n
    obtain ⟨ex2, h2⟩ := ih (relaxStep goal current st n)
    exact ⟨ex1 ++ ex2, by rw [h2, h1, List.append_assoc]⟩

theorem relaxList_expand {goal current : Cell} :
    ∀ (ns : List Cell) (st : AState) (cc : ℕ), st.cost current = some cc →
      (∀ x ∈ ns, x ≠ current) →
      ∀ w ∈ ns, ∃ cw, cw ≤ cc + 1 ∧
        (ns.foldl (relaxStep goal current) st).cost w = some cw := by
  intro ns
  induction ns with
  | nil =>
    intro st cc _ _ w hw
    simp at hw
  | cons n ns ih =>
    intro st cc hcc hne w hw
    simp only [List.foldl_cons]
    have hnc : n ≠ current := hne n (List.mem_cons_self _ _)
    have hcur1 : (relaxStep goal current st n).cost current = some cc := by
      rw [(relaxStep_ne (Ne.symm hnc)).1]
      exact hcc
    rcases List.mem_cons.mp hw with hw1 | hw2
    · subst hw1
      have hstep : ∃ c1, c1 ≤ cc + 1 ∧
          (relaxStep goal current st w).cost w = some c1 := by
        by_cases himp : st.cost w = none ∨
            (st.cost current).getD 0 + 1 < (st.cost w).getD 0
        · rw [relaxStep_improve himp]
          refine ⟨(st.cost current).getD 0 + 1, ?_, Function.update_same _ _ _⟩
          rw [hcc]
          simp
        · rw [relaxStep_skip himp]
          push_neg at himp
          obtain ⟨hnn, hge⟩ := himp
          rcases Option.ne_none_iff_exists.mp hnn with ⟨c1, hc1⟩
          refine ⟨c1, ?_, hc1.symm⟩
          rw [← hc1, hcc] at hge
          simpa using hge
      obtain ⟨c1, hc1, h1⟩ := hstep
      obtain ⟨c, hc, h2⟩ := relaxList_cost_le ns _ w c1 h1
      exact ⟨c, le_trans hc hc1, h2⟩
    · exact ih (relaxStep goal current st n) cc hcur1
        (fun x hx => hne x (List.mem_cons_of_mem _ hx)) w hw2

theorem relaxList_improved_pending {goal current : Cell} :
    ∀ (ns : List Cell) (st : AState) (w : Cell),
      (ns.foldl (relaxStep goal current) st).cost w ≠ st.cost w →
      ∃ p c, (p, w) ∈ (ns.foldl (relaxStep goal current) st).frontier ∧
        (ns.foldl (relaxStep goal current) st).cost w = some c ∧
        p ≤ (c : ℤ) + heuristic goal w := by
  intro ns
  induction ns with
  | nil =>
    intro st w hch
    exact absurd rfl hch
  | cons n ns ih =>
    intro st w hch
    simp only [List.foldl_cons] at hch ⊢
    by_cases hch1 :
        (ns.foldl (relaxStep goal current) (relaxStep goal current st n)).cost w =
          (relaxStep goal current st n).cost w
    · have hst1 : (relaxStep goal current st n).cost w ≠ st.cost w := by
        rw [← hch1]
        exact hch
      have hwn : w = n := by
        by_contra hne2
        exact hst1 (relaxStep_ne hne2).1
      subst hwn
      by_cases himp : st.cost w = none ∨
          (st.cost current).getD 0 + 1 < (st.cost w).getD 0
      · have hv := @relaxStep_improve goal current st w himp
        have hcw : (relaxStep goal current st w).cost w =
            some ((st.cost current).getD 0 + 1) := by
          rw [hv]
          exact Function.update_same _ _ _
        have hfr : ((((st.cost current).getD 0 + 1 : ℕ) : ℤ) + heuristic goal w, w) ∈
            (relaxStep goal current st w).frontier := by
          rw [hv]
          simp
        obtain ⟨ex2, hext⟩ := @relaxList_frontier_ext goal current
          ns (relaxStep goal current st w)
        refine ⟨(((st.cost current).getD 0 + 1 : ℕ) : ℤ) + heuristic goal w,
          (st.cost current).getD 0 + 1, ?_, ?_, le_refl _⟩
        · rw [hext]
          exact List.mem_append_left _ hfr
        · rw [hch1]
          exact hcw
      · rw [relaxStep_skip himp] at hst1
        exact absurd rfl hst1
    · exact ih (relaxStep goal current st n) w hch1

/-! ## C3: the costed-cell counter -/

theorem costedCard_update_fresh {s n : Cell} {cost : Cell → Option ℕ} (v : ℕ)
    (hn : n ∈ searchCells s) (h : cost n = none) :
    costedCard s (Function.update cost n (some v)) = costedCard s cost + 1 := by
  unfold costedCard
  have hset : ((searchCells s).filter
        fun z => (Function.update cost n (some v) z).isSome) =
      insert n ((searchCells s).filter fun z => (cost z).isSome) := by
    ext x
    simp only [Finset.mem_filter, Finset.mem_insert]
    by_cases hx : x = n
    · subst hx
      simp [hn, Function.update_same]
    · rw [Function.update_noteq hx]
      constructor
      · rintro ⟨h1, h2⟩
        exact Or.inr ⟨h1, h2⟩
      · rintro (h1 | ⟨h1, h2⟩)
        · exact absurd h1 hx
        · exact ⟨h1, h2⟩
  rw [hset, Finset.card_insert_of_not_mem]
  simp [h]

theorem costedCard_update_stale {s n : Cell} {cost : Cell → Option ℕ} (v : ℕ)
    (h : (cost n).isSome) :
    costedCard s (Function.update cost n (some v)) = costedCard s cost := by
  unfold costedCard
  congr 1
  ext x
  simp only [Finset.mem_filter]
  by_cases hx : x = n
  · subst hx
    simp [h, Function.update_same]
  · rw [Function.update_noteq hx]

theorem costedCard_le (s : Cell) (cost : Cell → Option ℕ) :
    costedCard s cost ≤ 401 := by
  unfold costedCard
  have h1 : ((searchCells s).filter fun z => (cost z).isSome).card ≤
      (searchCells s).card := Finset.card_filter_le _ _
  have h2 : (searchCells s).card ≤ 401 := by
    unfold searchCells
    have h3 : (validCells).card = 400 := by
      unfold validCells
      rw [Finset.card_product]
      simp [Int.card_Icc]
    calc (insert s validCells).card ≤ validCells.card + 1 :=
          Finset.card_insert_le _ _
      _ = 401 := by rw [h3]
  omega

/-! ## C3: preservation of the stable invariant -/

theorem relaxStep_SInv {grid : Grid} {s goal current : Cell} {st : AState}
    {n : Cell} {cc : ℕ} (hs : SInv grid s goal st)
    (hcc : st.cost current = some cc) (hn : n ∈ get_neighbors current grid) :
    SInv grid s goal (relaxStep goal current st n) := by
  by_cases himp : st.cost n = none ∨
      (st.cost current).getD 0 + 1 < (st.cost n).getD 0
  case neg =>
    rw [relaxStep_skip himp]
    exact hs
  case pos =>
    have hgd : (st.cost current).getD 0 = cc := by rw [hcc]; rfl
    have hncur : n ≠ current := get_neighbors_ne hn
    have hns : n ≠ s := by
      intro he
      subst he
      rcases himp with h | h
      · rw [hs.cost_start] at h
        simp at h
      · rw [hs.cost_start, hgd] at h
        simp at h
    have hnsc : n ∈ searchCells s := by
      unfold searchCells
      exact Finset.mem_insert_of_mem (get_neighbors_valid hn)
    rw [relaxStep_improve himp]
    constructor
    · dsimp only
      rw [Function.update_noteq (Ne.symm hns)]
      exact hs.cost_start
    · dsimp only
      rw [Function.update_noteq (Ne.symm hns)]
      exact hs.came_start
    · dsimp only
      intro z c hz hzs
      by_cases hzn : z = n
      · subst hzn
        rw [Function.update_same] at hz
        refine ⟨current, cc, ?_, ?_, ?_, hn⟩
        · exact Function.update_same _ _ _
        · rw [Function.update_noteq (Ne.symm hncur)]
          exact hcc
        · rw [← Option.some.inj hz, hgd]
      · rw [Function.update_noteq hzn] at hz
        obtain ⟨m, cm, h1, h2, h3, h4⟩ := hs.chain z c hz hzs
        by_cases hmn : m = n
        · subst hmn
          rcases himp with hi | hi
          · rw [h2] at hi
            exact absurd hi (by simp)
          · rw [h2] at hi
            simp only [Option.getD_some] at hi
            rw [hgd] at hi
            refine ⟨m, (st.cost current).getD 0 + 1, ?_,
              Function.update_same _ _ _, ?_, h4⟩
            · rw [Function.update_noteq hzn]
              exact h1
            · rw [hgd]
              omega
        · refine ⟨m, cm, ?_, ?_, h3, h4⟩
          · rw [Function.update_noteq hzn]
            exact h1
          · rw [Function.update_noteq hmn]
            exact h2
    · dsimp only
      intro p m hm
      rcases List.mem_append.mp hm with hold | hnew
      · rcases hs.fr p m hold with h1 | ⟨c, h1, h2⟩
        · exact Or.inl h1
        · right
          by_cases hmn : m = n
          · subst hmn
            rcases himp with hi | hi
            · rw [h1] at hi
              exact absurd hi (by simp)
            · rw [h1] at hi
              simp only [Option.getD_some] at hi
              refine ⟨(st.cost current).getD 0 + 1, Function.update_same _ _ _, ?_⟩
              have : ((st.cost current).getD 0 + 1 : ℤ) ≤ (c : ℤ) := by
                exact_mod_cast le_of_lt hi
              omega
          · exact ⟨c, by rw [Function.update_noteq hmn]; exact h1, h2⟩
      · simp only [List.mem_singleton, Prod.mk.injEq] at hnew
        obtain ⟨hp, hm2⟩ := hnew
        right
        subst hm2
        refine ⟨(st.cost current).getD 0 + 1, Function.update_same _ _ _, ?_⟩
        omega
    · dsimp only
      intro z c hz
      by_cases hfresh : st.cost n = none
      · rw [costedCard_update_fresh _ hnsc hfresh]
        by_cases hzn : z = n
        · subst hzn
          rw [Function.update_same] at hz
          have hb := hs.bound current cc hcc
          have : c = cc + 1 := by
            rw [← Option.some.inj hz, hgd]
          omega
        · rw [Function.update_noteq hzn] at hz
          have := hs.bound z c hz
          omega
      · have hsome : (st.cost n).isSome := Option.ne_none_iff_isSome.mp hfresh
        rw [costedCard_update_stale _ hsome]
        by_cases hzn : z = n
        · subst hzn
          rw [Function.update_same] at hz
          rcases himp with hi | hi
          · exact absurd hi hfresh
          · rcases Option.isSome_iff_exists.mp hsome with ⟨cold, hcold⟩
            rw [hcold] at hi
            simp only [Option.getD_some] at hi
            have hb := hs.bound z cold hcold
            have : c = (st.cost current).getD 0 + 1 := Option.some.inj hz.symm
            omega
        · rw [Function.update_noteq hzn] at hz
          exact hs.bound z c hz
    · dsimp only
      intro z hz
      by_cases hzn : z = n
      · subst hzn
        exact hnsc
      · rw [Function.update_noteq hzn] at hz
        exact hs.dom z hz

theorem relaxList_SInv {grid : Grid} {s goal current : Cell} :
    ∀ (ns : List Cell) (st : AState) (cc : ℕ), SInv grid s goal st →
      st.cost current = some cc →
      (∀ x ∈ ns, x ∈ get_neighbors current grid) →
      SInv grid s goal (ns.foldl (relaxStep goal current) st) := by
  intro ns
  induction ns with
  | nil =>
    intro st cc hs _ _
    exact hs
  | cons n ns ih =>
    intro st cc hs hcc hsub
    simp only [List.foldl_cons]
    have hn : n ∈ get_neighbors current grid := hsub n (List.mem_cons_self _ _)
    have hcur1 : (relaxStep goal current st n).cost current = some cc := by
      rw [(relaxStep_ne (Ne.symm (get_neighbors_ne hn))).1]
      exact hcc
    exact ih (relaxStep goal current st n) cc
      (relaxStep_SInv hs hcc hn) hcur1
      (fun x hx => hsub x (List.mem_cons_of_mem _ hx))

/-! ## C3: one loop iteration preserves the full invariant -/

theorem popped_cost {grid : Grid} {s goal : Cell} {st : AState} {e : Entry}
    (hinv : AInv grid s goal st) (hmem : e ∈ st.frontier) :
    ∃ cc, st.cost e.2 = some cc := by
  rcases hinv.fr e.1 e.2 (by simpa using hmem) with ⟨h1, _⟩ | ⟨c, h1, _⟩
  · rw [h1]
    exact ⟨0, hinv.cost_start⟩
  · exact ⟨c, h1⟩

theorem step_AInv {grid : Grid} {s goal : Cell} {st : AState} {e : Entry}
    {rest : List Entry} (hinv : AInv grid s goal st)
    (hpq : pqGet st.frontier = some (e, rest)) :
    AInv grid s goal (relaxAll goal grid e.2 { st with frontier := rest }) := by
  obtain ⟨hmem, hmin, hperm⟩ := pqGet_some_spec hpq
  obtain ⟨cc, hcc⟩ := popped_cost hinv hmem
  have hsb : SInv grid s goal { st with frontier := rest } := by
    refine ⟨hinv.cost_start, hinv.came_start, hinv.chain, ?_, hinv.bound, hinv.dom⟩
    intro p n hpn
    exact hinv.fr p n (hperm.symm.subset (List.mem_cons_of_mem _ hpn))
  have hnotin : e.2 ∉ get_neighbors e.2 grid := fun hmem2 =>
    get_neighbors_ne hmem2 rfl
  have hcc0 : ({ st with frontier := rest } : AState).cost e.2 = some cc := hcc
  have hs2 : SInv grid s goal
      (relaxAll goal grid e.2 { st with frontier := rest }) :=
    relaxList_SInv _ _ cc hsb hcc0 (fun x hx => hx)
  refine ⟨hs2, ?_⟩
  intro z c hz
  by_cases hzc : z = e.2
  · subst hzc
    right
    have hRc : (relaxAll goal grid e.2 { st with frontier := rest }).cost e.2 =
        some cc := by
      unfold relaxAll
      rw [(relaxList_untouched _ _ e.2 hnotin).1]
      exact hcc0
    have hceq : c = cc := Option.some.inj (hRc.symm.trans hz).symm
    intro w hw
    obtain ⟨cw, hcw1, hcw2⟩ := relaxList_expand (get_neighbors e.2 grid)
      { st with frontier := rest } cc hcc0
      (fun x hx => get_neighbors_ne hx) w hw
    exact ⟨cw, hcw2, by omega⟩
  · by_cases hch : (relaxAll goal grid e.2 { st with frontier := rest }).cost z =
        ({ st with frontier := rest } : AState).cost z
    · have hz0 : st.cost z = some c := by
        rw [← hch]
        exact hz
      rcases hinv.pe z c hz0 with ⟨p, hpf, hple⟩ | hexp
      · left
        have hpz : (p, z) ∈ rest := by
          rcases List.mem_cons.mp (hperm.subset hpf) with h1 | h1
          · exact absurd (congrArg Prod.snd h1) hzc
          · exact h1
        obtain ⟨ex, hex⟩ := relaxList_frontier_ext (get_neighbors e.2 grid)
          { st with frontier := rest }
        refine ⟨p, ?_, hple⟩
        unfold relaxAll
        rw [hex]
        exact List.mem_append_left _ hpz
      · right
        intro w hw
        obtain ⟨cw, hcw1, hcw2⟩ := hexp w hw
        obtain ⟨cw2, hle, hR⟩ := relaxList_cost_le (get_neighbors e.2 grid)
          { st with frontier := rest } w cw hcw1
        exact ⟨cw2, hR, by omega⟩
    · obtain ⟨p, c2, hpf, hc2, hple⟩ := relaxList_improved_pending
        (get_neighbors e.2 grid) { st with frontier := rest } z hch
      have hceq : c2 = c := (Option.some.inj (hz.symm.trans hc2)).symm
      left
      exact ⟨p, hpf, by rw [← hceq]; exact hple⟩

/-! ## C3: the termination measure decreases -/

theorem costedCard_le_400_of_none {s n : Cell} {cost : Cell → Option ℕ}
    (h : cost n = none) (hn : n ∈ searchCells s) :
    costedCard s cost ≤ 400 := by
  unfold costedCard
  have hsub : ((searchCells s).filter fun z => (cost z).isSome) ⊆
      (searchCells s).erase n := by
    intro x hx
    rcases Finset.mem_filter.mp hx with ⟨hx1, hx2⟩
    refine Finset.mem_erase.mpr ⟨?_, hx1⟩
    intro hxn
    rw [hxn, h] at hx2
    simp at hx2
  have h1 := Finset.card_le_card hsub
  have h2 : ((searchCells s).erase n).card = (searchCells s).card - 1 :=
    Finset.card_erase_of_mem hn
  have h3 : (searchCells s).card ≤ 401 := by
    unfold searchCells
    have h4 : (validCells).card = 400 := by
      unfold validCells
      rw [Finset.card_product]
      simp [Int.card_Icc]
    calc (insert s validCells).card ≤ validCells.card + 1 :=
          Finset.card_insert_le _ _
      _ = 401 := by rw [h4]
  omega

theorem relaxStep_measure {grid : Grid} {s goal current : Cell} {st : AState}
    {n : Cell} {cc : ℕ} (hs : SInv grid s goal st)
    (hcc : st.cost current = some cc) (hn : n ∈ get_neighbors current grid) :
    loopMeasure s (relaxStep goal current st n) ≤ loopMeasure s st := by
  by_cases himp : st.cost n = none ∨
      (st.cost current).getD 0 + 1 < (st.cost n).getD 0
  case neg =>
    rw [relaxStep_skip himp]
  case pos =>
    have hgd : (st.cost current).getD 0 = cc := by rw [hcc]; rfl
    have hnsc : n ∈ searchCells s := by
      unfold searchCells
      exact Finset.mem_insert_of_mem (get_neighbors_valid hn)
    rw [relaxStep_improve himp]
    unfold loopMeasure
    dsimp only
    rw [List.length_append, List.length_singleton]
    have hsum : (∑ z ∈ searchCells s,
          costWeight (Function.update st.cost n (some ((st.cost current).getD 0 + 1)) z)) + 1
        ≤ ∑ z ∈ searchCells s, costWeight (st.cost z) := by
      rw [Finset.sum_eq_add_sum_diff_singleton hnsc
        (fun z => costWeight (Function.update st.cost n
          (some ((st.cost current).getD 0 + 1)) z))]
      rw [Finset.sum_eq_add_sum_diff_singleton hnsc
        (fun z => costWeight (st.cost z))]
      have hdiff : (∑ z ∈ (searchCells s) \ {n},
            costWeight (Function.update st.cost n
              (some ((st.cost current).getD 0 + 1)) z)) =
          ∑ z ∈ (searchCells s) \ {n}, costWeight (st.cost z) := by
        refine Finset.sum_congr rfl fun x hx => ?_
        have hxn : x ≠ n := by
          rcases Finset.mem_sdiff.mp hx with ⟨_, hx2⟩
          simpa using hx2
        rw [Function.update_noteq hxn]
      rw [hdiff, Function.update_same]
      have hlt : costWeight (some ((st.cost current).getD 0 + 1)) + 1 ≤
          costWeight (st.cost n) := by
        rcases himp with hfresh | hx
        · rw [hfresh]
          simp only [costWeight]
          have hb := hs.bound current cc hcc
          have hcard := costedCard_le_400_of_none hfresh hnsc
          rw [hgd]
          omega
        · have hnn : st.cost n ≠ none := by
            intro hno
            rw [hno] at hx
            simp at hx
          rcases Option.ne_none_iff_exists.mp hnn with ⟨cold, hcold⟩
          rw [← hcold]
          simp only [costWeight]
          rw [← hcold] at hx
          simp only [Option.getD_some] at hx
          omega
      omega
    omega

theorem relaxList_measure {grid : Grid} {s goal current : Cell} :
    ∀ (ns : List Cell) (st : AState) (cc : ℕ), SInv grid s goal st →
      st.cost current = some cc →
      (∀ x ∈ ns, x ∈ get_neighbors current grid) →
      loopMeasure s (ns.foldl (relaxStep goal current) st) ≤ loopMeasure s st := by
  intro ns
  induction ns with
  | nil =>
    intro st cc _ _ _
    exact le_refl _
  | cons n ns ih =>
    intro st cc hs hcc hsub
    simp only [List.foldl_cons]
    have hn : n ∈ get_neighbors current grid := hsub n (List.mem_cons_self _ _)
    have hcur1 : (relaxStep goal current st n).cost current = some cc := by
      rw [(relaxStep_ne (Ne.symm (get_neighbors_ne hn))).1]
      exact hcc
    calc loopMeasure s ((ns.foldl (relaxStep goal current)) (relaxStep goal current st n))
        ≤ loopMeasure s (relaxStep goal current st n) :=
          ih (relaxStep goal current st n) cc (relaxStep_SInv hs hcc hn) hcur1
            (fun x hx => hsub x (List.mem_cons_of_mem _ hx))
      _ ≤ loopMeasure s st := relaxStep_measure hs hcc hn

theorem step_measure {grid : Grid} {s goal : Cell} {st : AState} {e : Entry}
    {rest : List Entry} (hinv : AInv grid s goal st)
    (hpq : pqGet st.frontier = some (e, rest)) :
    loopMeasure s (relaxAll goal grid e.2 { st with frontier := rest }) <
      loopMeasure s st := by
  obtain ⟨hmem, hmin, hperm⟩ := pqGet_some_spec hpq
  obtain ⟨cc, hcc⟩ := popped_cost hinv hmem
  have hsb : SInv grid s goal { st with frontier := rest } := by
    refine ⟨hinv.cost_start, hinv.came_start, hinv.chain, ?_, hinv.bound, hinv.dom⟩
    intro p n hpn
    exact hinv.fr p n (hperm.symm.subset (List.mem_cons_of_mem _ hpn))
  have h1 : loopMeasure s (relaxAll goal grid e.2 { st with frontier := rest }) ≤
      loopMeasure s { st with frontier := rest } :=
    relaxList_measure _ _ cc hsb hcc (fun x hx => hx)
  have h2 : rest.length + 1 = st.frontier.length := by
    have := hperm.length_eq
    simpa using this.symm
  have h3 : loopMeasure s ({ st with frontier := rest } : AState) + 1 =
      loopMeasure s st := by
    unfold loopMeasure
    dsimp only
    omega
  omega

/-! ## C3: running the loop to a genuine exit -/

theorem astarLoop_exit {grid : Grid} {s goal : Cell} :
    ∀ (fuel : ℕ) (st : AState), AInv grid s goal st → loopMeasure s st < fuel →
      AInv grid s goal (astarLoop goal grid fuel st) ∧
        (pqGet (astarLoop goal grid fuel st).frontier = none ∨
          ∃ p rest2, pqGet (astarLoop goal grid fuel st).frontier =
            some ((p, goal), rest2)) := by
  intro fuel
  induction fuel with
  | zero =>
    intro st _ hm
    omega
  | succ f ih =>
    intro st hinv hm
    rw [astarLoop]
    rcases hpq : pqGet st.frontier with _ | er
    · exact ⟨hinv, Or.inl hpq⟩
    · obtain ⟨e, rest⟩ := er
      by_cases hg : e.2 = goal
      · simp only [hpq]
        rw [if_pos hg]
        refine ⟨hinv, Or.inr ⟨e.1, rest, ?_⟩⟩
        rw [hpq, ← hg]
      · simp only [hpq, if_neg hg]
        have hstep := step_AInv hinv hpq
        have hmeas := step_measure hinv hpq
        exact ih _ hstep (by omega)

/-! ## C3: what the exit state says about the goal's cost -/

theorem cost_sound {grid : Grid} {s goal : Cell} {st : AState}
    (hinv : SInv grid s goal st) :
    ∀ (c : ℕ) (z : Cell), st.cost z = some c → ∃ L, L ≤ c ∧ reachLen grid L s z := by
  intro c
  induction c using Nat.strong_induction_on with
  | _ c ih =>
    intro z hz
    by_cases hzs : z = s
    · subst hzs
      exact ⟨0, Nat.zero_le _, rfl⟩
    · obtain ⟨m, cm, _, h2, h3, h4⟩ := hinv.chain z c hz hzs
      obtain ⟨L, hL, hr⟩ := ih cm (by omega) m h2
      exact ⟨L + 1, by omega, reachLen_snoc hr h4⟩

theorem heuristic_le_reach {grid : Grid} {goal : Cell} :
    ∀ (k : ℕ) (z : Cell), reachLen grid k z goal → heuristic goal z ≤ (k : ℤ) := by
  intro k
  induction k with
  | zero =>
    intro z hz
    have : z = goal := hz
    subst this
    rw [heuristic_self]
    simp
  | succ n ih =>
    intro z hz
    obtain ⟨w, hw, hr⟩ := hz
    have h1 := @heuristic_step grid goal z w hw
    have h2 := ih w hr
    push_cast
    omega

theorem climb {grid : Grid} {s goal : Cell} {st : AState}
    (hinv : AInv grid s goal st) (d : ℕ)
    (hmin : ∀ m, reachLen grid m s goal → d ≤ m) :
    ∀ (k : ℕ) (z : Cell) (dz : ℕ), st.cost z = some dz →
      reachLen grid k z goal → dz + k = d →
      st.cost goal = some d ∨ ∃ q m, (q, m) ∈ st.frontier ∧ q ≤ (d : ℤ) := by
  intro k
  induction k with
  | zero =>
    intro z dz hz hr hsum
    have hzg : z = goal := hr
    subst hzg
    left
    have hdz : dz = d := by omega
    rw [← hdz]
    exact hz
  | succ k ih =>
    intro z dz hz hr hsum
    have hr0 : reachLen grid (k + 1) z goal := hr
    obtain ⟨w, hw, hrw⟩ := hr
    rcases hinv.pe z dz hz with ⟨p, hpf, hple⟩ | hexp
    · right
      refine ⟨p, z, hpf, ?_⟩
      have hh : heuristic goal z ≤ ((k + 1 : ℕ) : ℤ) := heuristic_le_reach _ z hr0
      calc p ≤ (dz : ℤ) + heuristic goal z := hple
        _ ≤ (dz : ℤ) + ((k + 1 : ℕ) : ℤ) := by omega
        _ = (d : ℤ) := by push_cast; omega
    · obtain ⟨cw, hcw, hcwle⟩ := hexp w hw
      obtain ⟨L, hL, hLr⟩ := cost_sound hinv.toSInv cw w hcw
      have h1 : d ≤ L + k := hmin _ (reachLen_trans hLr hrw)
      have hcw2 : cw = dz + 1 := by omega
      exact ih w (dz + 1) (hcw2 ▸ hcw) hrw (by omega)

theorem exit_cost {grid : Grid} {s goal : Cell} {st : AState}
    (hinv : AInv grid s goal st)
    (hexit : pqGet st.frontier = none ∨
      ∃ p rest2, pqGet st.frontier = some ((p, goal), rest2))
    (d : ℕ) (hd : reachLen grid d s goal)
    (hmin : ∀ m, reachLen grid m s goal → d ≤ m) :
    st.cost goal = some d := by
  rcases climb hinv d hmin d s 0 hinv.cost_start hd (by omega) with h | ⟨q, m, hqf, hqd⟩
  · exact h
  rcases hexit with h0 | ⟨p, rest2, hpq⟩
  · rw [pqGet_none_iff] at h0
    rw [h0] at hqf
    simp at hqf
  · obtain ⟨hmem, hmin2, _⟩ := pqGet_some_spec hpq
    have hple : (p : ℤ) ≤ q := entryLe_fst (hmin2 (q, m) hqf)
    rcases hinv.fr p goal hmem with ⟨hgs, _⟩ | ⟨c, hc, hch⟩
    · subst hgs
      have hd0 : d = 0 := Nat.le_zero.mp (hmin 0 rfl)
      rw [hd0]
      exact hinv.cost_start
    · obtain ⟨L, hL, hLr⟩ := cost_sound hinv.toSInv c goal hc
      have h1 : d ≤ L := hmin L hLr
      have h2 : (c : ℤ) ≤ p := by
        have h3 := hch
        rw [heuristic_self] at h3
        omega
      have hcd : c = d := by omega
      rw [← hcd]
      exact hc

/-! ## C3: correctness of the path reconstruction -/

theorem recon_correct {grid : Grid} {s goal : Cell} {st : AState}
    (hinv : SInv grid s goal st) :
    ∀ (fuel : ℕ) (z : Cell) (c : ℕ) (acc : List Cell), st.cost z = some c →
      c < fuel →
      ∃ res, reconstructLoop st.came s fuel z acc = res ++ acc ∧
        List.Chain (isStep grid) s res ∧
        (s :: res).getLast (List.cons_ne_nil s res) = z ∧
        res.length ≤ c := by
  intro fuel
  induction fuel with
  | zero =>
    intro z c acc _ hf
    omega
  | succ f ih =>
    intro z c acc hz hcf
    rw [reconstructLoop]
    by_cases hzs : z = s
    · rw [if_pos hzs]
      refine ⟨[], by simp, List.Chain.nil, ?_, by simp⟩
      simp [hzs]
    · rw [if_neg hzs]
      obtain ⟨m, cm, h1, h2, h3, h4⟩ := hinv.chain z c hz hzs
      rw [h1]
      obtain ⟨res, hres, hch, hlast, hlen⟩ := ih m cm (z :: acc) h2 (by omega)
      refine ⟨res ++ [z], ?_, ?_, ?_, ?_⟩
      · show reconstructLoop st.came s f m (z :: acc) = res ++ [z] ++ acc
        rw [hres, List.append_assoc]
        rfl
      · refine chain_snoc res s z hch ?_
        rw [hlast]
        exact h4
      · show ((s :: res) ++ [z]).getLast (by simp) = z
        exact List.getLast_append_singleton _
      · rw [List.length_append, List.length_singleton]
        omega

/-! ## C3: the initial state -/

theorem init_AInv (grid : Grid) (s goal : Cell) :
    AInv grid s goal
      { frontier := [((0 : ℤ), s)], came := fun _ => none,
        cost := Function.update (fun _ => none) s (some 0) } := by
  refine ⟨⟨?_, rfl, ?_, ?_, ?_, ?_⟩, ?_⟩
  all_goals dsimp only
  · exact Function.update_same _ _ _
  · intro z c hz hzs
    rw [Function.update_noteq hzs] at hz
    simp at hz
  · intro p n hpn
    simp only [List.mem_singleton, Prod.mk.injEq] at hpn
    exact Or.inl ⟨hpn.2, hpn.1⟩
  · intro z c hz
    by_cases hzs : z = s
    · subst hzs
      rw [Function.update_same] at hz
      have hc0 : c = 0 := Option.some.inj hz.symm
      have hpos : 0 < costedCard z
          (Function.update (fun _ => none) z (some 0)) := by
        unfold costedCard
        refine Finset.card_pos.mpr ⟨z, Finset.mem_filter.mpr ⟨?_, ?_⟩⟩
        · exact Finset.mem_insert_self _ _
        · rw [Function.update_same]
          simp
      omega
    · rw [Function.update_noteq hzs] at hz
      simp at hz
  · intro z hz
    by_cases hzs : z = s
    · subst hzs
      exact Finset.mem_insert_self _ _
    · rw [Function.update_noteq hzs] at hz
      simp at hz
  · intro z c hz
    by_cases hzs : z = s
    · subst hzs
      left
      refine ⟨0, List.mem_singleton.mpr rfl, ?_⟩
      have hge := heuristic_nonneg goal z
      omega
    · rw [Function.update_noteq hzs] at hz
      simp at hz

theorem init_measure (s : Cell) :
    loopMeasure s
      { frontier := [((0 : ℤ), s)], came := fun _ => none,
        cost := Function.update (fun _ => none) s (some 0) } < LOOP_FUEL := by
  unfold loopMeasure LOOP_FUEL
  dsimp only
  have hcard : (searchCells s).card ≤ 401 := by
    unfold searchCells
    have h4 : (validCells).card = 400 := by
      unfold validCells
      rw [Finset.card_product]
      simp [Int.card_Icc]
    calc (insert s validCells).card ≤ validCells.card + 1 :=
          Finset.card_insert_le _ _
      _ = 401 := by rw [h4]
  have hsum : (∑ z ∈ searchCells s,
      costWeight ((Function.update (fun _ => none) s (some 0)) z)) ≤
        (searchCells s).card • 401 := by
    refine Finset.sum_le_card_nsmul _ _ _ ?_
    intro x _
    by_cases hxs : x = s
    · subst hxs
      rw [Function.update_same]
      simp [costWeight]
    · rw [Function.update_noteq hxs]
      simp [costWeight]
  rw [smul_eq_mul] at hsum
  have : (searchCells s).card * 401 ≤ 401 * 401 := by
    exact Nat.mul_le_mul_right _ hcard
  simp only [List.length_singleton]
  omega

/-! ## C3: the main theorem -/

/-- C3: for every grid and every pair of integral cells with the goal
reachable from the start by 4-directional non-Wall steps, `a_star_search`
returns a walk of valid steps that starts at the cell after the start,
ends exactly at the goal, and whose length equals the true shortest-path
length (the least number of unit steps connecting them, the quantity a
brute-force BFS computes). -/
theorem a_star_optimal (grid : Grid) (s g : Cell)
    (hreach : ∃ n, reachLen grid n s g) :
    List.Chain (isStep grid) s
        (a_star_search ((s.1 : ℚ), (s.2 : ℚ)) ((g.1 : ℚ), (g.2 : ℚ)) grid) ∧
      (s :: a_star_search ((s.1 : ℚ), (s.2 : ℚ)) ((g.1 : ℚ), (g.2 : ℚ)) grid).getLast
          (List.cons_ne_nil _ _) = g ∧
      (a_star_search ((s.1 : ℚ), (s.2 : ℚ)) ((g.1 : ℚ), (g.2 : ℚ)) grid).length =
        Nat.find hreach := by
  have hsnap : a_star_search ((s.1 : ℚ), (s.2 : ℚ)) ((g.1 : ℚ), (g.2 : ℚ)) grid =
      reconstructLoop (astarLoop g grid LOOP_FUEL
        { frontier := [((0 : ℤ), s)], came := fun _ => none,
          cost := Function.update (fun _ => none) s (some 0) }).came
        s LOOP_FUEL g [] := by
    unfold a_star_search
    rw [pround_intCast, pround_intCast, pround_intCast, pround_intCast]
  have hinv0 := init_AInv grid s g
  have hm0 := init_measure s
  obtain ⟨hinvF, hexitF⟩ := astarLoop_exit LOOP_FUEL _ hinv0 hm0
  have hdr : reachLen grid (Nat.find hreach) s g := Nat.find_spec hreach
  have hdmin : ∀ m, reachLen grid m s g → Nat.find hreach ≤ m :=
    fun m hm => Nat.find_min' hreach hm
  have hcost : (astarLoop g grid LOOP_FUEL
      { frontier := [((0 : ℤ), s)], came := fun _ => none,
        cost := Function.update (fun _ => none) s (some 0) }).cost g =
      some (Nat.find hreach) :=
    exit_cost hinvF hexitF (Nat.find hreach) hdr hdmin
  have hdlt : Nat.find hreach < LOOP_FUEL := by
    have hb := hinvF.bound g (Nat.find hreach) hcost
    have h2 := costedCard_le s (astarLoop g grid LOOP_FUEL
      { frontier := [((0 : ℤ), s)], came := fun _ => none,
        cost := Function.update (fun _ => none) s (some 0) }).cost
    unfold LOOP_FUEL
    omega
  obtain ⟨res, hres, hch, hlast, hlen⟩ :=
    recon_correct hinvF.toSInv LOOP_FUEL g (Nat.find hreach) [] hcost hdlt
  have hres2 : reconstructLoop (astarLoop g grid LOOP_FUEL
      { frontier := [((0 : ℤ), s)], came := fun _ => none,
        cost := Function.update (fun _ => none) s (some 0) }).came
      s LOOP_FUEL g [] = res := by
    rw [hres, List.append_nil]
  have hreach2 : reachLen grid res.length s g := by
    have hcr := chain_reachLen res s hch
    rwa [hlast] at hcr
  have hlen2 : res.length = Nat.find hreach :=
    le_antisymm hlen (hdmin _ hreach2)
  rw [hsnap, hres2]
  exact ⟨hch, hlast, hlen2⟩

/-- Witness for C3 on `gridW`: from `(1, 1)` to `(2, 2)` the least number
of steps is `2`, the returned path is a valid walk, it ends at the goal,
and its length is `2`. -/
theorem a_star_optimal_witness :
    List.Chain (isStep gridW) (1, 1) (a_star_search (1, 1) (2, 2) gridW) ∧
      ((1, 1) :: a_star_search (1, 1) (2, 2) gridW).getLast
        (List.cons_ne_nil _ _) = (2, 2) ∧
      (a_star_search (1, 1) (2, 2) gridW).length = 2 := by
  have hreach : ∃ n, reachLen gridW n (1, 1) (2, 2) := ⟨2, by decide⟩
  have h := a_star_optimal gridW (1, 1) (2, 2) hreach
  have hfind : Nat.find hreach = 2 := by
    rw [Nat.find_eq_iff]
    refine ⟨by decide, ?_⟩
    intro k hk
    interval_cases k <;> decide
  rw [hfind] at h
  dsimp only at h
  have hcast1 : (((1 : ℤ) : ℚ), ((1 : ℤ) : ℚ)) = ((1 : ℚ), (1 : ℚ)) := by
    norm_num
  have hcast2 : (((2 : ℤ) : ℚ), ((2 : ℤ) : ℚ)) = ((2 : ℚ), (2 : ℚ)) := by
    norm_num
  rw [hcast1, hcast2] at h
  exact h

end Pacman
